import Mathlib

/-!
Shallow embedding of the FreeWPC static periodic-interrupt scheduler generator
(`src/tools/sched/sched.c`), together with proofs about its scheduling core:
task insertion (`add_task`), tick-table expansion (`expand_ticks`), the slot
placement cost function (`find_best_tick`), slot allocation (`alloc_slot`),
input validation (`parse_schedule`), time parsing (`parse_time`) and the
round-robin dispatch structure of the emitted code (`write_tick_driver`).

C `double` lengths are modelled as rationals; machine integers as `Nat`
(`unsigned int`), with the 32-bit wraparound made explicit where the C code
relies on it.  Fatal `exit(1)` paths and undefined behaviour (division by
zero, NULL dereference, out-of-bounds writes) are modelled as distinct
error outcomes of `Except`.
-/

namespace Sched

/-- Capacity of the per-tick slot array (`MAX_SLOTS_PER_TICK` in sched.c). -/
def MAX_SLOTS_PER_TICK : ℕ := 32

/-- Capacity of the task table (`MAX_TASKS` in sched.c). -/
def MAX_TASKS : ℕ := 64

/-- Size of the tick array (`MAX_TICKS` in sched.c). -/
def MAX_TICKS : ℕ := 32

/-- Two to the 32: modulus of the C `unsigned int` arithmetic. -/
def MASK32 : ℕ := 4294967296

/-- Cycles per periodic interrupt (`CYCLES_PER_TICK` in sched.c). -/
def CYCLES_PER_TICK : ℕ := 1952

/-- One realtime task (`struct task` in sched.c).  `nSlots` is the running
count of slots the task has been scheduled into. -/
structure Task where
  name : String
  period : ℕ
  len : ℚ
  alreadyUnrolledCount : ℤ
  nSlots : ℕ
deriving DecidableEq

instance : Inhabited Task := ⟨⟨"", 0, 0, 0, 0⟩⟩

/-- One call site of a task inside one tick handler (`struct slot`).
The back-reference to the task is an index into the task table. -/
structure Slot where
  divider : ℕ
  task : ℕ
deriving DecidableEq

/-- One unrolled interrupt handler (`struct tick`).  The C `n_slots` field is
the length of `slots`. -/
structure Tick where
  slots : List Slot
  len : ℚ
deriving DecidableEq

instance : Inhabited Tick := ⟨⟨[], 0⟩⟩

/-- The module-global scheduler state of sched.c, gathered in one value:
`n_ticks`, `ticks[MAX_TICKS]`, `tasks[MAX_TASKS]` (as a growing list),
`max_ticks`, `max_divider` and the `-D` conditional set. -/
structure Schedule where
  nTicks : ℕ
  ticks : List Tick
  tasks : List Task
  maxTicks : ℕ
  maxDivider : ℕ
  conditionals : List String
deriving DecidableEq

/-- Outcomes of the C code other than normal return: `fatalError` is
`fprintf(stderr, ...); exit(1)`; the rest are undefined behaviour
(division by zero, passing NULL to `strlen`, writing past an array). -/
inductive CErr where
  | fatalError : String → CErr
  | divByZero : CErr
  | nullDeref : CErr
  | oobWrite : CErr
deriving DecidableEq

/-- The tick at index `i` (C: `ticks[i]`; reads out of the 32-entry range do
not occur on executed paths and default to the zero tick). -/
def tickAt (s : Schedule) (i : ℕ) : Tick := s.ticks.getD i default

/-- The slot list of tick `i`. -/
def slotsIn (s : Schedule) (i : ℕ) : List Slot := (tickAt s i).slots

/-- Initial state: the zero-initialized globals of sched.c (after
`init_schedule`), with `max_ticks` from `-M` and conditionals from `-D`.
`n_ticks = 0`, all ticks empty, no tasks, `max_divider = 1`. -/
def initSched (mt : ℕ) (conds : List String) : Schedule :=
  ⟨0, List.replicate MAX_TICKS default, [], mt, 1, conds⟩

/-- Embedding of `expand_ticks` (sched.c:396-416).  The requested count is
capped by `max_ticks`, but the capped value is then ignored: the code
hard-sets `n_ticks = 8` ("we are hard unrolling this 8 times now") and
re-initializes ticks `0..n_ticks-1`. -/
def expand_ticks (s : Schedule) (newTickCount : ℕ) : Schedule :=
  let _capped := min newTickCount s.maxTicks
  let s1 : Schedule := { s with nTicks := 8 }
  { s1 with ticks := (List.range 8).foldl (fun ts i => ts.set i default) s1.ticks }

/-- Per-bucket cost inside the `find_best_tick` scan (sched.c:447-465):
99999 if adding the task would push the bucket to one full tick of work,
else -1 for the last candidate when the task carries a divider, else the
bucket's current length. -/
def bucketCost (s : Schedule) (period count : ℕ) (len : ℚ) (tickno index : ℕ) : ℚ :=
  let q := s.nTicks / count
  let candidate := (tickAt s (tickno + q * index)).len
  if 1 ≤ candidate + len then 99999
  else if period > s.nTicks ∧ tickno = q - 1 then -1
  else candidate

/-- Total cost of candidate start index `tickno` (the inner loop sum of
`find_best_tick`). -/
def candTotal (s : Schedule) (period count : ℕ) (len : ℚ) (tickno : ℕ) : ℚ :=
  ((List.range count).map (bucketCost s period count len tickno)).sum

/-- The candidate scan of `find_best_tick`: fold over candidate indices with
accumulator `(best, best_len)`, updating on a strictly smaller total. -/
def fbtAux (f : ℕ → ℚ) : List ℕ → ℕ × ℚ → ℕ × ℚ
  | [], acc => acc
  | t :: ts, acc => if f t < acc.2 then fbtAux f ts (t, f t) else fbtAux f ts acc

/-- Embedding of `find_best_tick` (sched.c:426-477).  `best` starts at 0 and
`best_len` at 99999.0.  When `count = 0` the C loop bound `n_ticks / count`
divides by zero, modelled as the `divByZero` outcome. -/
def find_best_tick (s : Schedule) (period count : ℕ) (len : ℚ) : Except CErr ℕ :=
  if count = 0 then .error .divByZero
  else .ok (fbtAux (candTotal s period count len) (List.range (s.nTicks / count)) (0, 99999)).1

/-- Embedding of `alloc_slot` (sched.c:484-495) combined with the caller's
field assignments: fails when `n_slots + 1 == MAX_SLOTS_PER_TICK`, else
appends the slot. -/
def alloc_slot (t : Tick) (sl : Slot) : Except CErr Tick :=
  if t.slots.length + 1 = MAX_SLOTS_PER_TICK then
    .error (.fatalError "too many tasks scheduled in same tick")
  else .ok { t with slots := t.slots ++ [sl] }

/-- Bump `n_slots` of task `i` (C: `task->n_slots++` through the pointer into
the task table). -/
def bumpSlots (l : List Task) (i : ℕ) : List Task :=
  match l.get? i with
  | some x => l.set i { x with nSlots := x.nSlots + 1 }
  | none => l

/-- The slot-creation loop of `add_task` (sched.c:610-624): for `count`
iterations allocate a slot at `base`, record divider and task, add
`len / divider` to the tick's length, and step `base := (base + period) %
n_ticks` (undefined behaviour when `n_ticks = 0`). -/
def placeLoop (tIdx period divider : ℕ) (len : ℚ) : Schedule → ℕ → ℕ → Except CErr Schedule
  | s, _, 0 => .ok s
  | s, base, c + 1 =>
    match alloc_slot (tickAt s base) ⟨divider, tIdx⟩ with
    | .error e => .error e
    | .ok t =>
      let t1 : Tick := { t with len := t.len + len / (divider : ℚ) }
      let s1 : Schedule := { s with
        ticks := s.ticks.set base t1,
        tasks := bumpSlots s.tasks tIdx }
      if s1.nTicks = 0 then .error .divByZero
      else placeLoop tIdx period divider len s1 ((base + period) % s1.nTicks) c

/-- Conditional handling at the top of `add_task` (sched.c:512-529): a name
of the form `base?cond` is kept (as `base`) when `cond` is among the `-D`
conditionals, otherwise the task is skipped with a warning. -/
def stripConditional (conds : List String) (name : String) : Option String :=
  match name.data.findIdx? (· == '?') with
  | none => some name
  | some i =>
      if (⟨name.data.drop (i + 1)⟩ : String) ∈ conds then some ⟨name.data.take i⟩
      else none

/-- Pre-unrolled suffix handling of `add_task` (sched.c:534-539): a name
whose second-to-last character is `/` is truncated there and the last
character minus `'0'` becomes `already_unrolled_count`.  (For a one-character
name the C code reads before the buffer; such names do not occur.) -/
def stripUnroll (name : String) : String × ℤ :=
  let cs := name.data
  if 2 ≤ cs.length then
    if cs.getD (cs.length - 2) ' ' = '/' then
      (⟨cs.take (cs.length - 2)⟩, ((cs.getLastD ' ').toNat : ℤ) - 48)
    else (name, 0)
  else (name, 0)

/-- Embedding of `add_task` (sched.c:501-625).  After conditional and
unroll-suffix stripping the task is appended to the task table (the C code
has no capacity check here: a 65th task writes past `tasks[]`, modelled as
`oobWrite`).  Then the slot count and divider are computed exactly as in the
source: expansion when `period ≤ max_ticks`, a divider (with the 8-bit
overflow check) when `period > max_ticks`, plain `n_ticks / period`
otherwise (division by zero when `period = 0`). -/
def add_task (s : Schedule) (name0 : String) (period : ℕ) (len : ℚ) : Except CErr Schedule :=
  match stripConditional s.conditionals name0 with
  | none => .ok s
  | some name1 =>
    let nu := stripUnroll name1
    if MAX_TASKS ≤ s.tasks.length then .error .oobWrite
    else
      let tIdx := s.tasks.length
      let s1 : Schedule := { s with tasks := s.tasks ++ [⟨nu.1, period, len, nu.2, 0⟩] }
      if s1.nTicks < period then
        if period ≤ s1.maxTicks then
          let s2 := expand_ticks s1 period
          match find_best_tick s2 period (s2.nTicks / period) len with
          | .error e => .error e
          | .ok base => placeLoop tIdx period 1 len s2 base (s2.nTicks / period)
        else if s1.nTicks = 0 then .error .divByZero
        else
          let divider := period / s1.nTicks
          if s1.maxDivider < divider then
            if 256 ≤ divider then .error (.fatalError "period too large")
            else
              let s2 : Schedule := { s1 with maxDivider := divider }
              match find_best_tick s2 period 1 len with
              | .error e => .error e
              | .ok base => placeLoop tIdx period divider len s2 base 1
          else
            match find_best_tick s1 period 1 len with
            | .error e => .error e
            | .ok base => placeLoop tIdx period divider len s1 base 1
      else if period = 0 then .error .divByZero
      else
        match find_best_tick s1 period (s1.nTicks / period) len with
        | .error e => .error e
        | .ok base => placeLoop tIdx period 1 len s1 base (s1.nTicks / period)

/-- One validated task insertion, as performed by `parse_schedule`
(sched.c:672-689) on an already tokenized line: the period (an `unsigned
int`) must pass the power-of-two test `period & (period - 1) == 0`
(computed modulo 2^32), and the length must be less than the period. -/
def insertChecked (s : Schedule) (ins : String × ℕ × ℚ) : Except CErr Schedule :=
  let p := ins.2.1 % MASK32
  if p &&& ((p + MASK32 - 1) % MASK32) ≠ 0 then
    .error (.fatalError "invalid period (must be power of 2)")
  else if (p : ℚ) ≤ ins.2.2 then
    .error (.fatalError "length greater than its period")
  else add_task s ins.1 p ins.2.2

/-- A sequence of validated insertions, as produced by reading schedule
files line by line. -/
def runChecked : Schedule → List (String × ℕ × ℚ) → Except CErr Schedule
  | s, [] => .ok s
  | s, i :: rest =>
    match insertChecked s i with
    | .error e => .error e
    | .ok s1 => runChecked s1 rest

instance : Inhabited Schedule := ⟨initSched 8 []⟩

deriving instance DecidableEq for Except


/-- Extract the state of a successful run (used to name concrete states). -/
def getOkD (e : Except CErr Schedule) : Schedule :=
  match e with
  | .ok s => s
  | .error _ => default

/-- Digits consumed from the front of a character list, with the value
accumulated into `acc` (helper for the `strtod` model). -/
def digitsVal (acc : ℕ) : List Char → ℕ × ℕ × List Char
  | [] => (acc, 0, [])
  | c :: cs =>
      if c.isDigit then
        let r := digitsVal (acc * 10 + (c.toNat - 48)) cs
        (r.1, r.2.1 + 1, r.2.2)
      else (acc, 0, c :: cs)

/-- Model of the C library function `strtod` restricted to the decimal forms
`[ws][+|-]digits[.digits][ (e|E)[+|-]digits ]`, which covers the schedule
inputs.  Returns `none` when no conversion can be performed (C then yields
0.0 and sets no error). -/
def strtodModel (cs0 : List Char) : Option ℚ :=
  let cs1 := cs0.dropWhile (fun c => c = ' ' ∨ c = '\t' ∨ c = '\n' ∨ c = '\r')
  let sp : ℚ × List Char :=
    match cs1 with
    | '-' :: rest => (-1, rest)
    | '+' :: rest => (1, rest)
    | rest => (1, rest)
  let intPart := digitsVal 0 sp.2
  let fracPart : ℕ × ℕ × List Char :=
    match intPart.2.2 with
    | '.' :: rest => digitsVal 0 rest
    | rest => (0, 0, rest)
  if intPart.2.1 = 0 ∧ fracPart.2.1 = 0 then none
  else
    let mant : ℚ := sp.1 * ((intPart.1 : ℚ) + (fracPart.1 : ℚ) / (10 : ℚ) ^ fracPart.2.1)
    let expPart : Option (Bool × ℕ) :=
      match fracPart.2.2 with
      | 'e' :: '-' :: rest => if (digitsVal 0 rest).2.1 ≠ 0 then some (true, (digitsVal 0 rest).1) else none
      | 'E' :: '-' :: rest => if (digitsVal 0 rest).2.1 ≠ 0 then some (true, (digitsVal 0 rest).1) else none
      | 'e' :: '+' :: rest => if (digitsVal 0 rest).2.1 ≠ 0 then some (false, (digitsVal 0 rest).1) else none
      | 'E' :: '+' :: rest => if (digitsVal 0 rest).2.1 ≠ 0 then some (false, (digitsVal 0 rest).1) else none
      | 'e' :: rest => if (digitsVal 0 rest).2.1 ≠ 0 then some (false, (digitsVal 0 rest).1) else none
      | 'E' :: rest => if (digitsVal 0 rest).2.1 ≠ 0 then some (false, (digitsVal 0 rest).1) else none
      | _ => none
    match expPart with
    | some (true, e) => some (mant / (10 : ℚ) ^ e)
    | some (false, e) => some (mant * (10 : ℚ) ^ e)
    | none => some mant

/-- C `strtod(s, NULL)`: the converted value, or 0.0 when no conversion
could be performed. -/
def strtod (s : String) : ℚ := (strtodModel s.data).getD 0

/-- Embedding of `parse_time` (sched.c:631-643): looks at the last character
of the token; a `c`/`C` suffix divides the `strtod` value by
`cycles_per_interrupt` (1952), otherwise the `strtod` value is the tick
count.  (On an empty string C would read `string[-1]`; `strtok` tokens are
never empty.) -/
def parse_time (s : String) : ℚ :=
  match s.data.getLast? with
  | some c => if c = 'c' ∨ c = 'C' then strtod s / (CYCLES_PER_TICK : ℚ) else strtod s
  | none => strtod s

/-- Modelled from the spec: the time parser as section 4.1 describes it,
"Fails (reports a parse error and aborts generation) when the numeric
prefix is malformed", and otherwise behaves like `parse_time`.  This is the
comparison point for the error-reporting part of the claim; the code's own
`parse_time` above never fails. -/
def parse_time_spec (s : String) : Except CErr ℚ :=
  match strtodModel s.data with
  | none => .error (.fatalError "parse error")
  | some v =>
      .ok (if s.data.getLast? = some 'c' ∨ s.data.getLast? = some 'C'
        then v / (CYCLES_PER_TICK : ℚ) else v)

/-- `parse_time` as invoked by `parse_schedule` on a `strtok` result, which
is NULL when the line has run out of tokens: `strlen(NULL)` inside
`parse_time` dereferences NULL. -/
def parse_time_c : Option String → Except CErr ℚ
  | none => .error .nullDeref
  | some s => .ok (parse_time s)

/-- C truncation of a nonnegative `double` to `unsigned int` (the
`(unsigned int)parse_time(...)` cast for the period; negative or huge
values would be UB in C and do not occur in the inputs considered). -/
def truncToUInt (q : ℚ) : ℕ := (⌊q⌋).toNat % MASK32

/-- The outcome of one input line in `parse_schedule`. -/
inductive LineResult where
  | skip : LineResult
  | task : String → ℕ → ℚ → LineResult
deriving DecidableEq

/-- `strtok` tokenization of one line with delimiters space, tab, newline:
the list of nonempty maximal runs. -/
def tokenize (line : String) : List String :=
  (line.split (fun c => c = ' ' ∨ c = '\t' ∨ c = '\n')).filter (fun t => t ≠ "")

/-- Embedding of the per-line body of `parse_schedule` (sched.c:658-690):
skip empty lines and `#` comments; otherwise read the period token (NULL if
missing — crash inside `parse_time`), test `period & (period-1)`, read the
length token (NULL if missing — crash), test `len >= period`, and hand the
task to `add_task`.  A fatal test failure is `exit(1)` with a diagnostic;
the missing-token paths are NULL dereferences, not diagnostics. -/
def parse_line (line : String) : Except CErr LineResult :=
  match tokenize line with
  | [] => .ok .skip
  | name :: rest =>
    if name.data.headD ' ' = '#' then .ok .skip
    else
      match parse_time_c rest.head? with
      | .error e => .error e
      | .ok pv =>
        let p := truncToUInt pv
        if p &&& ((p + MASK32 - 1) % MASK32) ≠ 0 then
          .error (.fatalError "invalid period (must be power of 2)")
        else
          match parse_time_c (rest.drop 1).head? with
          | .error e => .error e
          | .ok lv =>
            if (p : ℚ) ≤ lv then .error (.fatalError "length greater than its period")
            else .ok (.task name p lv)

/-- The divider guard emitted by `write_tick_driver` (sched.c:306-313) for a
group of slots with divider `d`: `if (!(<prefix>_divider & (d-1)))` is
emitted exactly when `d > 1`, with mask `d - 1`. -/
def emittedGuardMask (d : ℕ) : Option ℕ := if 1 < d then some (d - 1) else none

/-- The handler installed by `<prefix>_init` (sched.c:379-382):
`<prefix>_function = <prefix>_0`. -/
def initHandler : ℕ := 0

/-- The successor installed by emitted handler `i` before returning
(sched.c:349-353): `<prefix>_function = <prefix>_<(i+1) mod n_ticks>` when
`n_ticks > 1`, and no reassignment otherwise. -/
def nextHandler (nTicks i : ℕ) : ℕ := if 1 < nTicks then (i + 1) % nTicks else i

/-- The handler that runs on the `k`-th interrupt after `<prefix>_init`
(interrupts numbered from 0): the function pointer starts at handler 0 and
each handler installs its successor. -/
def handlerAt (nTicks : ℕ) : ℕ → ℕ
  | 0 => initHandler
  | k + 1 => nextHandler nTicks (handlerAt nTicks k)

/-- The sequence of tick indices visited by the placement loop of `add_task`
when it starts at `base` and advances by `period` modulo `nT`, for `count`
steps: mirrors the recursion of `placeLoop`. -/
def posList (nT period : ℕ) : ℕ → ℕ → List ℕ
  | _, 0 => []
  | base, c + 1 => base :: posList nT period ((base + period) % nT) c

/-- Number of slots of task index `t` sitting in tick `i`. -/
def slotCountIn (s : Schedule) (t i : ℕ) : ℕ :=
  ((slotsIn s i).filter (fun sl => sl.task == t)).length

/-- Total number of slots of task index `t` over the whole tick table. -/
def totalSlots (s : Schedule) (t : ℕ) : ℕ :=
  ((List.range MAX_TICKS).map (fun i => slotCountIn s t i)).sum

/-- Sum over the slots of tick `i` of `slot.task.length / slot.divider`:
the value the recorded tick length must always equal. -/
def tickLenSum (s : Schedule) (i : ℕ) : ℚ :=
  ((slotsIn s i).map (fun sl => (s.tasks.getD sl.task default).len / (sl.divider : ℚ))).sum

/-- The placement-independent fields of a task (everything except the
`n_slots` counter). -/
def taskShape (t : Task) : String × ℕ × ℚ × ℤ :=
  (t.name, t.period, t.len, t.alreadyUnrolledCount)

/-- State invariant maintained by every successful validated insertion:
the shape facts about `n_ticks`, capacities and `max_divider`, and the
per-task placement facts (slot count, shared divider, stride positions,
recorded tick lengths) that the specification promises. -/
structure Inv (s : Schedule) : Prop where
  ticks_len : s.ticks.length = MAX_TICKS
  nt : s.nTicks = 0 ∨ s.nTicks = 8
  empty0 : s.nTicks = 0 → s.tasks = [] ∧ ∀ i, tickAt s i = default
  slot_task : ∀ i, ∀ sl ∈ slotsIn s i, sl.task < s.tasks.length
  high_empty : ∀ i, 8 ≤ i → slotsIn s i = []
  cap : ∀ i, (slotsIn s i).length ≤ 31
  tasks_cap : s.tasks.length ≤ MAX_TASKS
  maxdiv : ∃ k, k ≤ 7 ∧ s.maxDivider = 2 ^ k
  periods : ∀ t, t < s.tasks.length → ∃ a, (s.tasks.getD t default).period = 2 ^ a
  counts : ∀ t, t < s.tasks.length →
    totalSlots s t = max 1 (s.nTicks / (s.tasks.getD t default).period)
  divs : ∀ i, ∀ sl ∈ slotsIn s i,
    sl.divider = max 1 ((s.tasks.getD sl.task default).period / s.nTicks)
  pos : ∀ t, t < s.tasks.length → ∃ base, base < s.nTicks ∧ ∀ i,
    slotCountIn s t i =
      (posList s.nTicks (s.tasks.getD t default).period base
        (max 1 (s.nTicks / (s.tasks.getD t default).period))).count i
  lens : ∀ i, (tickAt s i).len = tickLenSum s i

/-- A state reachable from the zero-initialized globals by a sequence of
validated insertions. -/
def Reach (mt : ℕ) (conds : List String) (s : Schedule) : Prop :=
  ∃ ins, runChecked (initSched mt conds) ins = .ok s

/-- The state after running Scenario A of the spec (`scan 1 0.1` with
`max_ticks = 4`) through the validated-insertion path. -/
def scenarioAState : Schedule :=
  getOkD (runChecked (initSched 4 []) [("scan", 1, (1 : ℚ) / 10)])

/-- The state after a fast period-1 task followed by `rare 16 0.2` with
`max_ticks = 8` (the divider scenario, with the tick table already
expanded by the first task). -/
def scenarioCState : Schedule :=
  getOkD (runChecked (initSched 8 []) [("fast", 1, 0), ("rare", 16, (1 : ℚ) / 5)])

/-- The state after inserting the single fast task `fast 1 0` with
`max_ticks = 8`: `n_ticks = 8` and `max_divider = 1`. -/
def c5State : Schedule :=
  getOkD (runChecked (initSched 8 []) [("fast", 1, 0)])

/-- A tick-table state on which the cost scan of `find_best_tick` fails to
return the minimizing candidate: lengths 0.9 everywhere except tick 5. -/
def cexFBT : Schedule :=
  { nTicks := 8,
    ticks := [⟨[], 9 / 10⟩, ⟨[], 9 / 10⟩, ⟨[], 9 / 10⟩, ⟨[], 9 / 10⟩,
              ⟨[], 9 / 10⟩, ⟨[], 0⟩, ⟨[], 9 / 10⟩, ⟨[], 9 / 10⟩] ++ List.replicate 24 default,
    tasks := [], maxTicks := 8, maxDivider := 1, conditionals := [] }

/-- A tick holding 31 slots (one below the `MAX_SLOTS_PER_TICK` capacity). -/
def tick31 : Tick := ⟨List.replicate 31 ⟨1, 0⟩, 0⟩

/-- A state whose task table holds exactly `MAX_TASKS` tasks. -/
def fullTaskState : Schedule :=
  { initSched 8 [] with tasks := List.replicate MAX_TASKS default }

/-! ### Helper lemmas on lists and indexing -/

theorem getD_set_self {α : Type} {l : List α} {i : ℕ} {a d : α} (h : i < l.length) :
    (l.set i a).getD i d = a := by
  simp [List.getD, List.getElem?_set, h]

theorem getD_set_ne {α : Type} {l : List α} {i j : ℕ} {a d : α} (h : j ≠ i) :
    (l.set i a).getD j d = l.getD j d := by
  simp [List.getD, List.getElem?_set, Ne.symm h]

theorem getD_append_left {α : Type} {l l' : List α} {i : ℕ} {d : α} (h : i < l.length) :
    (l ++ l').getD i d = l.getD i d := by
  simp [List.getD, List.getElem?_append, h]

theorem getD_concat_length {α : Type} {l : List α} {a d : α} :
    (l ++ [a]).getD l.length d = a := by
  simp [List.getD]

/-! ### The placement position sequence -/

theorem posList_mem_lt {nT p : ℕ} : ∀ {c base : ℕ}, base < nT →
    ∀ x ∈ posList nT p base c, x < nT := by
  intro c
  induction c with
  | zero => intro base _ x hx; simp [posList] at hx
  | succ c ih =>
      intro base hb x hx
      simp only [posList, List.mem_cons] at hx
      rcases hx with rfl | hx
      · exact hb
      · exact ih (Nat.mod_lt _ (Nat.lt_of_le_of_lt (Nat.zero_le _) hb)) x hx

theorem posList_eq_map_range {nT p : ℕ} : ∀ {c base : ℕ}, base < nT →
    posList nT p base c = (List.range c).map (fun k => (base + k * p) % nT) := by
  intro c
  induction c with
  | zero => intro base _; simp [posList]
  | succ c ih =>
      intro base hb
      have hnT : 0 < nT := Nat.lt_of_le_of_lt (Nat.zero_le _) hb
      rw [posList, List.range_succ_eq_map, List.map_cons, List.map_map]
      refine congrArg₂ List.cons ?_ ?_
      · rw [Nat.zero_mul, Nat.add_zero, Nat.mod_eq_of_lt hb]
      · rw [ih (Nat.mod_lt _ hnT)]
        refine List.map_congr_left fun k _ => ?_
        simp only [Function.comp_apply]
        rw [Nat.mod_add_mod]
        congr 1
        rw [Nat.succ_eq_add_one]
        ring

theorem posList_count_high {nT p c base i : ℕ} (hb : base < nT) (hi : nT ≤ i) :
    (posList nT p base c).count i = 0 := by
  refine List.count_eq_zero.mpr fun hmem => ?_
  exact absurd (posList_mem_lt hb i hmem) (not_lt.mpr hi)

theorem posList_length {nT p : ℕ} : ∀ {c base : ℕ}, (posList nT p base c).length = c := by
  intro c
  induction c with
  | zero => intro base; simp [posList]
  | succ c ih => intro base; simp [posList, ih]

/-! ### The candidate scan of find_best_tick -/

theorem fbtAux_fst_mem (f : ℕ → ℚ) : ∀ (l : List ℕ) (acc : ℕ × ℚ),
    (fbtAux f l acc).1 = acc.1 ∨ (fbtAux f l acc).1 ∈ l := by
  intro l
  induction l with
  | nil => intro acc; exact Or.inl rfl
  | cons t ts ih =>
      intro acc
      simp only [fbtAux]
      by_cases h : f t < acc.2
      · rw [if_pos h]
        rcases ih (t, f t) with h1 | h1
        · exact Or.inr (List.mem_cons.mpr (Or.inl h1))
        · exact Or.inr (List.mem_cons.mpr (Or.inr h1))
      · rw [if_neg h]
        rcases ih acc with h1 | h1
        · exact Or.inl h1
        · exact Or.inr (List.mem_cons.mpr (Or.inr h1))

theorem fbtAux_append (f : ℕ → ℚ) (l₁ l₂ : List ℕ) :
    ∀ acc, fbtAux f (l₁ ++ l₂) acc = fbtAux f l₂ (fbtAux f l₁ acc) := by
  induction l₁ with
  | nil => intro acc; rfl
  | cons t ts ih =>
      intro acc
      show fbtAux f (t :: (ts ++ l₂)) acc = _
      rw [fbtAux]
      by_cases h : f t < acc.2
      · rw [if_pos h, ih, fbtAux, if_pos h]
      · rw [if_neg h, ih, fbtAux, if_neg h]

/-- Behaviour of the candidate scan over `0, 1, ..., q-1` starting from the C
initial accumulator `(0, 99999.0)`: either no candidate total was ever
strictly below 99999.0 and the result is the initial `(0, 99999.0)`, or the
result is the least index attaining the minimum total. -/
theorem fbtRange_spec (f : ℕ → ℚ) : ∀ q : ℕ,
    (fbtAux f (List.range q) (0, 99999) = (0, 99999) ∧ ∀ i, i < q → (99999 : ℚ) ≤ f i) ∨
    ((fbtAux f (List.range q) (0, 99999)).1 < q ∧
      (fbtAux f (List.range q) (0, 99999)).2 = f (fbtAux f (List.range q) (0, 99999)).1 ∧
      f (fbtAux f (List.range q) (0, 99999)).1 < 99999 ∧
      (∀ i, i < q → f (fbtAux f (List.range q) (0, 99999)).1 ≤ f i) ∧
      (∀ i, i < (fbtAux f (List.range q) (0, 99999)).1 →
        f (fbtAux f (List.range q) (0, 99999)).1 < f i)) := by
  intro q
  induction q with
  | zero => exact Or.inl ⟨rfl, fun i hi => absurd hi (Nat.not_lt_zero i)⟩
  | succ q ih =>
      have hsplit : List.range (q + 1) = List.range q ++ [q] := by
        simp [List.range_succ]
      rw [hsplit, fbtAux_append]
      rcases ih with ⟨heq, hall⟩ | ⟨hlt, hval, hsmall, hmin, hfirst⟩
      · rw [heq]
        have hunfold : ∀ acc : ℕ × ℚ, fbtAux f [q] acc = if f q < acc.2 then (q, f q) else acc :=
          fun acc => rfl
        rw [hunfold]
        by_cases h : f q < (99999 : ℚ)
        · rw [if_pos h]
          refine Or.inr ⟨Nat.lt_succ_self q, rfl, h, ?_, ?_⟩
          · intro i hi
            rcases Nat.lt_succ_iff_lt_or_eq.mp hi with hi' | rfl
            · exact le_of_lt (lt_of_lt_of_le h (hall i hi'))
            · exact le_refl _
          · intro i hi
            have hiq : i < q := hi
            exact lt_of_lt_of_le h (hall i hiq)
        · rw [if_neg h]
          refine Or.inl ⟨rfl, fun i hi => ?_⟩
          rcases Nat.lt_succ_iff_lt_or_eq.mp hi with hi' | rfl
          · exact hall i hi'
          · exact not_lt.mp h
      · set r := fbtAux f (List.range q) (0, 99999) with hr
        have hunfold : fbtAux f [q] r = if f q < r.2 then (q, f q) else r := rfl
        rw [hunfold]
        by_cases h : f q < r.2
        · rw [if_pos h]
          rw [hval] at h
          refine Or.inr ⟨Nat.lt_succ_self q, rfl, lt_trans h hsmall, ?_, ?_⟩
          · intro i hi
            rcases Nat.lt_succ_iff_lt_or_eq.mp hi with hi' | rfl
            · exact le_of_lt (lt_of_lt_of_le h (hmin i hi'))
            · exact le_refl _
          · intro i hi
            have hiq : i < q := hi
            exact lt_of_lt_of_le h (hmin i hiq)
        · rw [if_neg h]
          rw [hval] at h
          refine Or.inr ⟨Nat.lt_succ_of_lt hlt, hval, hsmall, ?_, hfirst⟩
          intro i hi
          rcases Nat.lt_succ_iff_lt_or_eq.mp hi with hi' | rfl
          · exact hmin i hi'
          · exact not_lt.mp h

/-! ### Power-of-two characterization of the C test `x & (x - 1) == 0` -/

theorem land_self_eq (m : ℕ) : m &&& m = m := by
  apply Nat.eq_of_testBit_eq
  intro i
  rw [Nat.testBit_land, Bool.and_self]

theorem land_even_odd (m n : ℕ) : (2 * m) &&& (2 * n + 1) = 2 * (m &&& n) := by
  apply Nat.eq_of_testBit_eq
  intro i
  cases i with
  | zero =>
      rw [Nat.testBit_land, Nat.testBit_zero, Nat.testBit_zero, Nat.testBit_zero]
      have h1 : (2 * m) % 2 = 0 := by omega
      have h2 : (2 * (m &&& n)) % 2 = 0 := by omega
      rw [h1, h2]
      simp
  | succ i =>
      rw [Nat.testBit_land, Nat.testBit_succ, Nat.testBit_succ, Nat.testBit_succ]
      have h1 : (2 * m) / 2 = m := by omega
      have h2 : (2 * n + 1) / 2 = n := by omega
      have h3 : (2 * (m &&& n)) / 2 = m &&& n := by omega
      rw [h1, h2, h3, Nat.testBit_land]

theorem land_odd_even (m n : ℕ) : (2 * m + 1) &&& (2 * n) = 2 * (m &&& n) := by
  apply Nat.eq_of_testBit_eq
  intro i
  cases i with
  | zero =>
      rw [Nat.testBit_land, Nat.testBit_zero, Nat.testBit_zero, Nat.testBit_zero]
      have h1 : (2 * n) % 2 = 0 := by omega
      have h2 : (2 * (m &&& n)) % 2 = 0 := by omega
      rw [h1, h2]
      simp
  | succ i =>
      rw [Nat.testBit_land, Nat.testBit_succ, Nat.testBit_succ, Nat.testBit_succ]
      have h1 : (2 * m + 1) / 2 = m := by omega
      have h2 : (2 * n) / 2 = n := by omega
      have h3 : (2 * (m &&& n)) / 2 = m &&& n := by omega
      rw [h1, h2, h3, Nat.testBit_land]

/-- The C power-of-two test: a nonzero `x` with `x & (x - 1) == 0` is a power
of two.  (`x = 0` also passes the C test; the zero case is handled at the
use sites.) -/
theorem pow2_of_land_pred_zero : ∀ x : ℕ, x ≠ 0 → x &&& (x - 1) = 0 → ∃ k, x = 2 ^ k := by
  intro x
  induction x using Nat.strong_induction_on with
  | _ x ih =>
    intro hx h
    rcases Nat.lt_or_ge x 2 with h2 | h2
    · interval_cases x
      · exact absurd rfl hx
      · exact ⟨0, rfl⟩
    · rcases Nat.even_or_odd x with hpar | hpar
      · obtain ⟨m, hm⟩ := hpar
        have hm2 : x = 2 * m := by omega
        have hm1 : 1 ≤ m := by omega
        have hpred : x - 1 = 2 * (m - 1) + 1 := by omega
        have h' : (2 * m) &&& (2 * (m - 1) + 1) = 0 := by rw [← hm2, ← hpred]; exact h
        rw [land_even_odd] at h'
        have hmz : m &&& (m - 1) = 0 := by omega
        obtain ⟨k, hk⟩ := ih m (by omega) (by omega) hmz
        exact ⟨k + 1, by rw [hm2, hk, pow_succ]; ring⟩
      · obtain ⟨m, hm⟩ := hpar
        have hm1 : 1 ≤ m := by omega
        have hpred : x - 1 = 2 * m := by omega
        have h' : (2 * m + 1) &&& (2 * m) = 0 := by rw [← hm, ← hpred]; exact h
        rw [land_odd_even, land_self_eq] at h'
        omega

/-! ### The placement loop -/

theorem bumpSlots_length (l : List Task) (i : ℕ) : (bumpSlots l i).length = l.length := by
  rw [bumpSlots]
  cases h : l.get? i with
  | none => rfl
  | some x => exact List.length_set l i _

theorem bumpSlots_shape (l : List Task) (i j : ℕ) :
    taskShape ((bumpSlots l i).getD j default) = taskShape (l.getD j default) := by
  rw [bumpSlots]
  cases h : l.get? i with
  | none => rfl
  | some x =>
      by_cases hij : j = i
      · subst hij
        have hlen : j < l.length := by
          by_contra hge
          rw [List.get?_eq_getElem?, List.getElem?_eq_none (Nat.le_of_not_lt hge)] at h
          exact Option.noConfusion h
        rw [getD_set_self hlen]
        have hx : l.getD j default = x := by
          rw [List.getD, List.get?_eq_getElem?] at *
          rw [h]
          rfl
        rw [hx]
        rfl
      · rw [getD_set_ne hij]

theorem tasks_append_shape (l : List Task) (T : Task) (j : ℕ) (hj : j < l.length) :
    (l ++ [T]).getD j default = l.getD j default := getD_append_left hj

/-- Postcondition of the slot-creation loop: on success, every tick gains
exactly as many copies of the slot `⟨divider, task⟩` as the position
sequence visits it, its recorded length grows by that multiple of
`len / divider`, and nothing else changes (except the task's `n_slots`). -/
theorem placeLoop_spec (tIdx p dv : ℕ) (l : ℚ) : ∀ (c : ℕ) (s : Schedule) (b : ℕ) (s' : Schedule),
    s.nTicks = 8 → s.ticks.length = MAX_TICKS → b < 8 →
    placeLoop tIdx p dv l s b c = .ok s' →
    s'.nTicks = 8 ∧ s'.maxTicks = s.maxTicks ∧ s'.maxDivider = s.maxDivider ∧
    s'.conditionals = s.conditionals ∧ s'.ticks.length = MAX_TICKS ∧
    s'.tasks.length = s.tasks.length ∧
    (∀ j, taskShape (s'.tasks.getD j default) = taskShape (s.tasks.getD j default)) ∧
    (∀ i, slotsIn s' i = slotsIn s i ++ List.replicate ((posList 8 p b c).count i) ⟨dv, tIdx⟩) ∧
    (∀ i, (tickAt s' i).len = (tickAt s i).len + ((posList 8 p b c).count i : ℚ) * (l / (dv : ℚ))) ∧
    (∀ i, (slotsIn s i).length ≤ 31 → (slotsIn s' i).length ≤ 31) := by
  intro c
  induction c with
  | zero =>
      intro s b s' hnt htl hb hok
      rw [placeLoop] at hok
      injection hok with h
      subst h
      refine ⟨hnt, rfl, rfl, rfl, htl, rfl, fun j => rfl, fun i => ?_, fun i => ?_, fun i h => h⟩
      · rw [posList]
        simp
      · rw [posList]
        simp
  | succ c ih =>
      intro s b s' hnt htl hb hok
      rw [placeLoop] at hok
      by_cases hfull : (tickAt s b).slots.length + 1 = MAX_SLOTS_PER_TICK
      · rw [alloc_slot, if_pos hfull] at hok
        exact absurd hok (by simp)
      · rw [alloc_slot, if_neg hfull] at hok
        simp only [] at hok
        set told := tickAt s b with htold
        set t1 : Tick := { told with
          slots := told.slots ++ [⟨dv, tIdx⟩],
          len := told.len + l / (dv : ℚ) } with ht1
        set s1 : Schedule := { s with ticks := s.ticks.set b t1, tasks := bumpSlots s.tasks tIdx }
          with hs1
        have hs1nt : s1.nTicks = 8 := hnt
        have hnz : ¬ s1.nTicks = 0 := by rw [hs1nt]; exact (by norm_num)
        rw [if_neg hnz] at hok
        have hs1tl : s1.ticks.length = MAX_TICKS := by
          show (s.ticks.set b t1).length = MAX_TICKS
          rw [List.length_set]
          exact htl
        have hblt : b < s.ticks.length := by rw [htl]; exact lt_of_lt_of_le hb (by norm_num [MAX_TICKS])
        have hstep : (b + p) % s1.nTicks = (b + p) % 8 := by rw [hs1nt]
        rw [hstep] at hok
        have hb' : (b + p) % 8 < 8 := Nat.mod_lt _ (by norm_num)
        obtain ⟨h1, h2, h3, h4, h5, h6, h7, h8, h9, h10⟩ := ih s1 ((b + p) % 8) s' hs1nt hs1tl hb' hok
        have hslots1 : ∀ i, slotsIn s1 i =
            if i = b then slotsIn s b ++ [⟨dv, tIdx⟩] else slotsIn s i := by
          intro i
          by_cases hib : i = b
          · subst hib
            show ((s.ticks.set i t1).getD i default).slots = _
            rw [getD_set_self (by rw [htl] at hblt ⊢; exact hblt), if_pos rfl]
            rfl
          · show ((s.ticks.set b t1).getD i default).slots = _
            rw [getD_set_ne hib, if_neg hib]
            rfl
        have hlen1 : ∀ i, (tickAt s1 i).len =
            if i = b then (tickAt s b).len + l / (dv : ℚ) else (tickAt s i).len := by
          intro i
          by_cases hib : i = b
          · subst hib
            show ((s.ticks.set i t1).getD i default).len = _
            rw [getD_set_self (by rw [htl] at hblt ⊢; exact hblt), if_pos rfl]
          · show ((s.ticks.set b t1).getD i default).len = _
            rw [getD_set_ne hib, if_neg hib]
            rfl
        have hcount : ∀ i, (posList 8 p b (c + 1)).count i =
            (posList 8 p ((b + p) % 8) c).count i + if i = b then 1 else 0 := by
          intro i
          rw [posList, List.count_cons]
          by_cases hib : i = b
          · rw [if_pos hib, if_pos (by rw [hib]; exact beq_self_eq_true b)]
          · rw [if_neg hib, if_neg ?_]
            intro hc
            exact hib (eq_of_beq hc).symm
        refine ⟨h1, h2, h3, h4, h5, ?_, ?_, ?_, ?_, ?_⟩
        · rw [h6]
          show (bumpSlots s.tasks tIdx).length = s.tasks.length
          exact bumpSlots_length _ _
        · intro j
          rw [h7 j]
          exact bumpSlots_shape _ _ _
        · intro i
          rw [h8 i, hslots1 i, hcount i]
          by_cases hib : i = b
          · rw [if_pos hib, if_pos hib, hib]
            rw [List.append_assoc]
            congr 1
          · rw [if_neg hib, if_neg hib, Nat.add_zero]
        · intro i
          rw [h9 i, hlen1 i, hcount i]
          by_cases hib : i = b
          · rw [if_pos hib, if_pos hib, hib]
            push_cast
            ring
          · rw [if_neg hib, if_neg hib, Nat.add_zero]
        · intro i hcap
          refine h10 i ?_
          rw [hslots1 i]
          by_cases hib : i = b
          · rw [if_pos hib]
            rw [List.length_append]
            have : (slotsIn s b).length + 1 ≠ 32 := by
              rw [htold] at hfull
              exact fun hc => hfull (by rw [MAX_SLOTS_PER_TICK]; exact hc)
            rw [hib] at hcap
            simp only [List.length_singleton]
            omega
          · rw [if_neg hib]
            exact hcap

/-! ### Expansion and counting helpers -/

theorem foldl_set_length (d : Tick) : ∀ (L : List ℕ) (ts : List Tick),
    (L.foldl (fun acc j => acc.set j d) ts).length = ts.length := by
  intro L
  induction L with
  | nil => intro ts; rfl
  | cons j L ih => intro ts; rw [List.foldl_cons, ih, List.length_set]

theorem foldl_set_getD (d : Tick) : ∀ (L : List ℕ) (ts : List Tick),
    (∀ j ∈ L, j < ts.length) → ∀ i,
    (L.foldl (fun acc j => acc.set j d) ts).getD i default =
      if i ∈ L then d else ts.getD i default := by
  intro L
  induction L with
  | nil => intro ts _ i; simp
  | cons j L ih =>
      intro ts hmem i
      rw [List.foldl_cons]
      have hbd : ∀ x ∈ L, x < (ts.set j d).length := by
        intro x hx
        rw [List.length_set]
        exact hmem x (List.mem_cons.mpr (Or.inr hx))
      rw [ih (ts.set j d) hbd i]
      by_cases hiL : i ∈ L
      · rw [if_pos hiL, if_pos (List.mem_cons.mpr (Or.inr hiL))]
      · rw [if_neg hiL]
        by_cases hij : i = j
        · subst hij
          rw [getD_set_self (hmem i (List.mem_cons.mpr (Or.inl rfl))),
            if_pos (List.mem_cons.mpr (Or.inl rfl))]
        · rw [getD_set_ne hij, if_neg ?_]
          intro hc
          rcases List.mem_cons.mp hc with hc | hc
          · exact hij hc
          · exact hiL hc

theorem expand_ticks_nTicks (s : Schedule) (r : ℕ) : (expand_ticks s r).nTicks = 8 := rfl

theorem expand_ticks_tasks (s : Schedule) (r : ℕ) : (expand_ticks s r).tasks = s.tasks := rfl

theorem expand_ticks_maxDivider (s : Schedule) (r : ℕ) :
    (expand_ticks s r).maxDivider = s.maxDivider := rfl

theorem expand_ticks_length (s : Schedule) (r : ℕ) (h : s.ticks.length = MAX_TICKS) :
    (expand_ticks s r).ticks.length = MAX_TICKS := by
  show ((List.range 8).foldl (fun ts i => ts.set i default) s.ticks).length = MAX_TICKS
  rw [foldl_set_length, h]

theorem expand_ticks_tickAt (s : Schedule) (r i : ℕ) (h : s.ticks.length = MAX_TICKS) :
    tickAt (expand_ticks s r) i = if i < 8 then default else tickAt s i := by
  show ((List.range 8).foldl (fun ts j => ts.set j default) s.ticks).getD i default = _
  rw [foldl_set_getD default (List.range 8) s.ticks ?_ i]
  · by_cases hi : i < 8
    · rw [if_pos (List.mem_range.mpr hi), if_pos hi]
    · rw [if_neg (fun hc => hi (List.mem_range.mp hc)), if_neg hi]
      rfl
  · intro j hj
    rw [h]
    have h8 : j < 8 := List.mem_range.mp hj
    have h32 : MAX_TICKS = 32 := rfl
    omega

theorem sum_map_add_nat (L : List ℕ) (f g : ℕ → ℕ) :
    (L.map (fun i => f i + g i)).sum = (L.map f).sum + (L.map g).sum := by
  induction L with
  | nil => rfl
  | cons a L ih => simp only [List.map_cons, List.sum_cons, ih]; omega

theorem sum_map_zero (L : List ℕ) : (L.map (fun _ => (0 : ℕ))).sum = 0 := by
  induction L with
  | nil => rfl
  | cons a L ih => simp only [List.map_cons, List.sum_cons, ih]

theorem sum_indicator (x : ℕ) : ∀ n : ℕ, x < n →
    ((List.range n).map (fun i => if x == i then 1 else 0)).sum = 1 := by
  intro n
  induction n with
  | zero => intro h; exact absurd h (Nat.not_lt_zero x)
  | succ n ih =>
      intro hx
      have hsplit : List.range (n + 1) = List.range n ++ [n] := by simp [List.range_succ]
      rw [hsplit, List.map_append, List.sum_append]
      rcases Nat.lt_succ_iff_lt_or_eq.mp hx with hlt | rfl
      · rw [ih hlt]
        simp only [List.map_cons, List.map_nil, List.sum_cons, List.sum_nil]
        rw [if_neg (by simpa using Nat.ne_of_lt hlt)]
        omega
      · have hzero : ((List.range x).map (fun i => if x == i then 1 else 0)).sum = 0 := by
          rw [List.map_congr_left (fun i hi => ?_), sum_map_zero]
          rw [if_neg (by simpa using (Nat.ne_of_gt (List.mem_range.mp hi)))]
        rw [hzero]
        simp

theorem count_sum_range (n : ℕ) : ∀ L : List ℕ, (∀ x ∈ L, x < n) →
    ((List.range n).map (fun i => L.count i)).sum = L.length := by
  intro L
  induction L with
  | nil =>
      intro _
      have : ∀ i ∈ List.range n, ([] : List ℕ).count i = 0 := fun i _ => rfl
      rw [List.map_congr_left this, sum_map_zero, List.length_nil]
  | cons a L ih =>
      intro hmem
      have hcnt : ∀ i ∈ List.range n, (a :: L).count i = L.count i + (if a == i then 1 else 0) :=
        fun i _ => List.count_cons i a L
      rw [List.map_congr_left hcnt, sum_map_add_nat,
        ih (fun x hx => hmem x (List.mem_cons.mpr (Or.inr hx))),
        sum_indicator a n (hmem a (List.mem_cons.mpr (Or.inl rfl))), List.length_cons]

theorem filter_length_append_replicate (l : List Slot) (m : ℕ) (sl : Slot) (t : ℕ) :
    ((l ++ List.replicate m sl).filter (fun x => x.task == t)).length =
      (l.filter (fun x => x.task == t)).length + if sl.task = t then m else 0 := by
  rw [List.filter_append, List.length_append]
  congr 1
  by_cases h : sl.task = t
  · rw [if_pos h]
    have : ∀ x ∈ List.replicate m sl, (fun x : Slot => x.task == t) x = true := by
      intro x hx
      rw [List.eq_of_mem_replicate hx]
      exact beq_iff_eq.mpr h
    rw [List.filter_eq_self.mpr this, List.length_replicate]
  · rw [if_neg h]
    have : ∀ x ∈ List.replicate m sl, ¬ (fun x : Slot => x.task == t) x = true := by
      intro x hx
      rw [List.eq_of_mem_replicate hx]
      simpa using h
    rw [List.filter_eq_nil_iff.mpr this, List.length_nil]

theorem shape_eq_period {a b : Task} (h : taskShape a = taskShape b) : a.period = b.period := by
  rw [taskShape, taskShape, Prod.mk.injEq, Prod.mk.injEq] at h
  exact h.2.1

theorem shape_eq_len {a b : Task} (h : taskShape a = taskShape b) : a.len = b.len := by
  rw [taskShape, taskShape, Prod.mk.injEq, Prod.mk.injEq, Prod.mk.injEq] at h
  exact h.2.2.1

theorem find_best_tick_ok_lt {s : Schedule} {period count : ℕ} {len : ℚ} {b : ℕ}
    (hnt : s.nTicks = 8) (hok : find_best_tick s period count len = .ok b) : b < 8 := by
  rw [find_best_tick] at hok
  by_cases hc : count = 0
  · rw [if_pos hc] at hok
    exact absurd hok (by simp)
  · rw [if_neg hc] at hok
    injection hok with h
    subst h
    rcases fbtAux_fst_mem _ (List.range (s.nTicks / count)) (0, 99999) with h | h
    · rw [h]
      norm_num
    · have h1 := List.mem_range.mp h
      have hle : s.nTicks / count ≤ 8 := by rw [hnt]; exact Nat.div_le_self 8 count
      omega

/-- The invariant holds after a placement when the pre-placement state
satisfies it for the old tasks and the placement parameters are the
canonical count and divider for the freshly appended task. -/
theorem inv_after_place
    (s₂ s' : Schedule) (tIdx base cnt dv : ℕ) (T : Task)
    (hnt : s₂.nTicks = 8)
    (htl : s₂.ticks.length = MAX_TICKS)
    (hlen : s₂.tasks.length = tIdx + 1)
    (hT : s₂.tasks.getD tIdx default = T)
    (hslt : ∀ i, ∀ sl ∈ slotsIn s₂ i, sl.task < tIdx)
    (hhigh : ∀ i, 8 ≤ i → slotsIn s₂ i = [])
    (hcap : ∀ i, (slotsIn s₂ i).length ≤ 31)
    (htcap : s₂.tasks.length ≤ MAX_TASKS)
    (hmd : ∃ k, k ≤ 7 ∧ s₂.maxDivider = 2 ^ k)
    (hper : ∀ t, t < tIdx → ∃ a, (s₂.tasks.getD t default).period = 2 ^ a)
    (hTper : ∃ a, T.period = 2 ^ a)
    (hcnts : ∀ t, t < tIdx → totalSlots s₂ t = max 1 (8 / (s₂.tasks.getD t default).period))
    (hdivs : ∀ i, ∀ sl ∈ slotsIn s₂ i,
      sl.divider = max 1 ((s₂.tasks.getD sl.task default).period / 8))
    (hpos : ∀ t, t < tIdx → ∃ b0, b0 < 8 ∧ ∀ i,
      slotCountIn s₂ t i = (posList 8 (s₂.tasks.getD t default).period b0
        (max 1 (8 / (s₂.tasks.getD t default).period))).count i)
    (hlens : ∀ i, (tickAt s₂ i).len = tickLenSum s₂ i)
    (hbase : base < 8)
    (hcnt : cnt = max 1 (8 / T.period))
    (hdv : dv = max 1 (T.period / 8))
    (hok : placeLoop tIdx T.period dv T.len s₂ base cnt = .ok s') :
    Inv s' := by
  obtain ⟨g1, g2, g3, g4, g5, g6, g7, g8, g9, g10⟩ :=
    placeLoop_spec tIdx T.period dv T.len cnt s₂ base s' hnt htl hbase hok
  have hlen' : s'.tasks.length = tIdx + 1 := g6.trans hlen
  have hshape : ∀ j, taskShape (s'.tasks.getD j default) = taskShape (s₂.tasks.getD j default) := g7
  have hper' : ∀ j, (s'.tasks.getD j default).period = (s₂.tasks.getD j default).period :=
    fun j => shape_eq_period (hshape j)
  have hlen'' : ∀ j, (s'.tasks.getD j default).len = (s₂.tasks.getD j default).len :=
    fun j => shape_eq_len (hshape j)
  have hTperiod : (s'.tasks.getD tIdx default).period = T.period := by rw [hper' tIdx, hT]
  have hTlen : (s'.tasks.getD tIdx default).len = T.len := by rw [hlen'' tIdx, hT]
  have hzero : ∀ i, slotCountIn s₂ tIdx i = 0 := by
    intro i
    rw [slotCountIn, List.length_eq_zero]
    refine List.filter_eq_nil_iff.mpr fun sl hsl => ?_
    have := hslt i sl hsl
    simpa using Nat.ne_of_lt this
  have hcount' : ∀ t i, slotCountIn s' t i =
      slotCountIn s₂ t i + if t = tIdx then (posList 8 T.period base cnt).count i else 0 := by
    intro t i
    rw [slotCountIn, slotCountIn, g8 i, filter_length_append_replicate]
    by_cases ht : t = tIdx
    · rw [if_pos ht, if_pos (by rw [ht])]
    · rw [if_neg ht, if_neg (by intro hc; exact ht hc.symm)]
  constructor
  case ticks_len => exact g5
  case nt => exact Or.inr g1
  case empty0 =>
      intro h0
      rw [g1] at h0
      exact absurd h0 (by norm_num)
  case slot_task =>
      intro i sl hsl
      rw [g8 i] at hsl
      rcases List.mem_append.mp hsl with hm | hm
      · have := hslt i sl hm
        omega
      · rw [List.eq_of_mem_replicate hm]
        show tIdx < s'.tasks.length
        omega
  case high_empty =>
      intro i hi
      rw [g8 i, hhigh i hi, posList_count_high hbase hi]
      rfl
  case cap => exact fun i => g10 i (hcap i)
  case tasks_cap =>
      rw [g6]
      exact htcap
  case maxdiv =>
      rw [g3]
      exact hmd
  case periods =>
      intro t ht
      rw [hlen'] at ht
      rw [hper' t]
      rcases Nat.lt_succ_iff_lt_or_eq.mp ht with hlt | rfl
      · exact hper t hlt
      · rw [hT]
        exact hTper
  case counts =>
      intro t ht
      rw [hlen'] at ht
      rw [totalSlots, g1, hper' t]
      rcases Nat.lt_succ_iff_lt_or_eq.mp ht with hlt | rfl
      · have : ∀ i ∈ List.range MAX_TICKS, slotCountIn s' t i = slotCountIn s₂ t i := by
          intro i _
          rw [hcount' t i, if_neg (Nat.ne_of_lt hlt), Nat.add_zero]
        rw [List.map_congr_left this]
        exact hcnts t hlt
      · have : ∀ i ∈ List.range MAX_TICKS, slotCountIn s' t i =
            (posList 8 T.period base cnt).count i := by
          intro i _
          rw [hcount' t i, if_pos rfl, hzero i, Nat.zero_add]
        rw [List.map_congr_left this, count_sum_range MAX_TICKS _ ?_, posList_length, hcnt, hT]
        intro x hx
        have h8 := posList_mem_lt hbase x hx
        have h32 : MAX_TICKS = 32 := rfl
        omega
  case divs =>
      intro i sl hsl
      rw [g8 i] at hsl
      rw [g1]
      rcases List.mem_append.mp hsl with hm | hm
      · rw [hper' sl.task]
        exact hdivs i sl hm
      · rw [List.eq_of_mem_replicate hm]
        show dv = max 1 ((s'.tasks.getD tIdx default).period / 8)
        rw [hTperiod]
        exact hdv
  case pos =>
      intro t ht
      rw [hlen'] at ht
      rcases Nat.lt_succ_iff_lt_or_eq.mp ht with hlt | rfl
      · obtain ⟨b0, hb0, hcnt0⟩ := hpos t hlt
        refine ⟨b0, by rw [g1]; exact hb0, fun i => ?_⟩
        rw [hcount' t i, if_neg (Nat.ne_of_lt hlt), Nat.add_zero, g1, hper' t]
        exact hcnt0 i
      · refine ⟨base, by rw [g1]; exact hbase, fun i => ?_⟩
        rw [hcount' t i, if_pos rfl, hzero i, Nat.zero_add, g1, hper' t, hT, ← hcnt]
  case lens =>
      intro i
      rw [g9 i, hlens i, tickLenSum, tickLenSum, g8 i, List.map_append, List.sum_append]
      congr 1
      · refine congrArg List.sum (List.map_congr_left fun sl _ => ?_)
        rw [hlen'' sl.task]
      · rw [List.map_replicate, List.sum_replicate]
        show ((posList 8 T.period base cnt).count i : ℚ) * (T.len / (dv : ℚ)) = _
        rw [nsmul_eq_mul]
        congr 1
        show T.len / (dv : ℚ) = (s'.tasks.getD tIdx default).len / (dv : ℚ)
        rw [hTlen]

/-- Invariant preservation for a placement that did not go through
`expand_ticks`: the tick table is that of `s`, the task is appended, and
`max_divider` may have been raised to another admissible value. -/
theorem inv_step_no_expand
    (s s' : Schedule) (T : Task) (base cnt dv newMd : ℕ)
    (hInv : Inv s)
    (hnt : s.nTicks = 8)
    (hcap64 : s.tasks.length < MAX_TASKS)
    (hTper : ∃ a, T.period = 2 ^ a)
    (hmd' : ∃ k, k ≤ 7 ∧ newMd = 2 ^ k)
    (hbase : base < 8)
    (hcnt : cnt = max 1 (8 / T.period))
    (hdv : dv = max 1 (T.period / 8))
    (hok : placeLoop s.tasks.length T.period dv T.len
      { s with tasks := s.tasks ++ [T], maxDivider := newMd } base cnt = .ok s') :
    Inv s' := by
  refine inv_after_place { s with tasks := s.tasks ++ [T], maxDivider := newMd } s'
    s.tasks.length base cnt dv T hnt hInv.ticks_len ?_ ?_ ?_ ?_ ?_ ?_ ?_ ?_ hTper ?_ ?_ ?_ ?_
    hbase hcnt hdv hok
  · show (s.tasks ++ [T]).length = s.tasks.length + 1
    simp
  · exact getD_concat_length
  · intro i sl hsl
    exact hInv.slot_task i sl hsl
  · exact hInv.high_empty
  · exact hInv.cap
  · show (s.tasks ++ [T]).length ≤ MAX_TASKS
    have h64 : MAX_TASKS = 64 := rfl
    simp only [List.length_append, List.length_singleton]
    omega
  · exact hmd'
  · intro t ht
    show ∃ a, ((s.tasks ++ [T]).getD t default).period = 2 ^ a
    rw [getD_append_left ht]
    exact hInv.periods t ht
  · intro t ht
    show totalSlots s t = max 1 (8 / ((s.tasks ++ [T]).getD t default).period)
    rw [getD_append_left ht, ← hnt]
    exact hInv.counts t ht
  · intro i sl hsl
    show sl.divider = max 1 (((s.tasks ++ [T]).getD sl.task default).period / 8)
    rw [getD_append_left (hInv.slot_task i sl hsl), ← hnt]
    exact hInv.divs i sl hsl
  · intro t ht
    obtain ⟨b0, hb0, hc0⟩ := hInv.pos t ht
    refine ⟨b0, by rw [← hnt]; exact hb0, fun i => ?_⟩
    show slotCountIn s t i = _
    rw [getD_append_left ht, ← hnt]
    exact hc0 i
  · intro i
    show (tickAt s i).len = _
    rw [hInv.lens i, tickLenSum, tickLenSum]
    refine congrArg List.sum (List.map_congr_left fun sl hsl => ?_)
    show (s.tasks.getD sl.task default).len / (sl.divider : ℚ) =
      ((s.tasks ++ [T]).getD sl.task default).len / (sl.divider : ℚ)
    rw [getD_append_left (hInv.slot_task i sl hsl)]

/-- Invariant preservation for a placement that went through `expand_ticks`:
this only succeeds from the initial `n_ticks = 0` state (any later expansion
produces a zero count and the division-by-zero outcome), so the task table
was empty. -/
theorem inv_step_expand
    (s s' : Schedule) (T : Task) (base cnt : ℕ)
    (hInv : Inv s)
    (hnt0 : s.nTicks = 0)
    (hTper : ∃ a, T.period = 2 ^ a)
    (hple : T.period ≤ 8)
    (hppos : 0 < T.period)
    (hbase : base < 8)
    (hcnt : cnt = 8 / T.period)
    (hok : placeLoop s.tasks.length T.period 1 T.len
      (expand_ticks { s with tasks := s.tasks ++ [T] } T.period) base cnt = .ok s') :
    Inv s' := by
  obtain ⟨htasks0, hticks0⟩ := hInv.empty0 hnt0
  have htIdx : s.tasks.length = 0 := by rw [htasks0]; rfl
  have hslots₂ : ∀ i, slotsIn (expand_ticks { s with tasks := s.tasks ++ [T] } T.period) i = [] := by
    intro i
    rw [slotsIn, expand_ticks_tickAt { s with tasks := s.tasks ++ [T] } T.period i hInv.ticks_len]
    by_cases hi : i < 8
    · rw [if_pos hi]
      rfl
    · rw [if_neg hi]
      show (tickAt s i).slots = []
      rw [hticks0 i]
      rfl
  refine inv_after_place (expand_ticks { s with tasks := s.tasks ++ [T] } T.period) s'
    s.tasks.length base cnt 1 T rfl (expand_ticks_length _ _ hInv.ticks_len) ?_ ?_ ?_ ?_ ?_ ?_ ?_
    ?_ hTper ?_ ?_ ?_ ?_ hbase ?_ ?_ hok
  · show (s.tasks ++ [T]).length = s.tasks.length + 1
    simp
  · exact getD_concat_length
  · intro i sl hsl
    rw [hslots₂ i] at hsl
    exact absurd hsl (List.not_mem_nil sl)
  · intro i _
    exact hslots₂ i
  · intro i
    rw [hslots₂ i]
    norm_num
  · show (s.tasks ++ [T]).length ≤ MAX_TASKS
    rw [htasks0]
    have h64 : MAX_TASKS = 64 := rfl
    simp only [List.nil_append, List.length_singleton]
    omega
  · rw [expand_ticks_maxDivider]
    exact hInv.maxdiv
  · intro t ht
    rw [htIdx] at ht
    exact absurd ht (Nat.not_lt_zero t)
  · intro t ht
    rw [htIdx] at ht
    exact absurd ht (Nat.not_lt_zero t)
  · intro i sl hsl
    rw [hslots₂ i] at hsl
    exact absurd hsl (List.not_mem_nil sl)
  · intro t ht
    rw [htIdx] at ht
    exact absurd ht (Nat.not_lt_zero t)
  · intro i
    rw [tickLenSum, hslots₂ i, List.map_nil, List.sum_nil]
    rw [expand_ticks_tickAt { s with tasks := s.tasks ++ [T] } T.period i hInv.ticks_len]
    by_cases hi : i < 8
    · rw [if_pos hi]
      rfl
    · rw [if_neg hi]
      show (tickAt s i).len = 0
      rw [hticks0 i]
      rfl
  · rw [hcnt]
    have h1 : 1 ≤ 8 / T.period := (Nat.one_le_div_iff hppos).mpr hple
    exact (Nat.max_eq_right h1).symm
  · have h0 : T.period / 8 ≤ 1 := by
      have h2 : T.period / 8 ≤ 8 / 8 := Nat.div_le_div_right hple
      simpa using h2
    exact (Nat.max_eq_left h0).symm

/-- One validated insertion preserves the invariant. -/
theorem inv_insertChecked {s s' : Schedule} {nm : String} {per : ℕ} {ln : ℚ}
    (hInv : Inv s) (hok : insertChecked s (nm, per, ln) = .ok s') : Inv s' := by
  rw [insertChecked] at hok
  by_cases hg1 : per % MASK32 &&& ((per % MASK32 + MASK32 - 1) % MASK32) ≠ 0
  · rw [if_pos hg1] at hok
    exact absurd hok (by simp)
  · rw [if_neg hg1] at hok
    by_cases hg2 : ((per % MASK32 : ℕ) : ℚ) ≤ ln
    · rw [if_pos hg2] at hok
      exact absurd hok (by simp)
    · rw [if_neg hg2] at hok
      -- now hok : add_task s nm (per % MASK32) ln = .ok s'
      set p := per % MASK32 with hp
      have hpow : p = 0 ∨ ∃ a, p = 2 ^ a := by
        by_cases hz : p = 0
        · exact Or.inl hz
        · refine Or.inr (pow2_of_land_pred_zero p hz ?_)
          have hM : MASK32 = 4294967296 := rfl
          have hplt : p < MASK32 := by
            rw [hp, hM]
            exact Nat.mod_lt per (by norm_num)
          have hpred : (p + MASK32 - 1) % MASK32 = p - 1 := by
            rw [hM] at hplt ⊢
            omega
          rw [hpred] at hg1
          exact not_ne_iff.mp hg1
      rw [add_task] at hok
      cases hsc : stripConditional s.conditionals nm with
      | none =>
          rw [hsc] at hok
          simp only [] at hok
          injection hok with h
          subst h
          exact hInv
      | some name1 =>
          rw [hsc] at hok
          simp only [] at hok
          by_cases hoob : MAX_TASKS ≤ s.tasks.length
          · rw [if_pos hoob] at hok
            exact absurd hok (by simp)
          · rw [if_neg hoob] at hok
            set T : Task := ⟨(stripUnroll name1).1, p, ln, (stripUnroll name1).2, 0⟩ with hT
            by_cases hbig : s.nTicks < p
            · rw [if_pos hbig] at hok
              have hppos : 0 < p := by omega
              by_cases hexp : p ≤ s.maxTicks
              · rw [if_pos hexp] at hok
                split at hok
                next e heq => exact absurd hok (by simp)
                next base heq =>
                    have hcount0 : (expand_ticks { s with tasks := s.tasks ++ [T] } p).nTicks / p
                        = 8 / p := by rw [expand_ticks_nTicks]
                    have hcne : 8 / p ≠ 0 := by
                      intro h0
                      rw [find_best_tick, hcount0, if_pos h0] at heq
                      exact absurd heq (by simp)
                    have hple : p ≤ 8 := by
                      by_contra hgt
                      exact hcne (Nat.div_eq_of_lt (by omega))
                    have hnt0 : s.nTicks = 0 := by
                      rcases hInv.nt with h0 | h8
                      · exact h0
                      · omega
                    have hbase8 : base < 8 :=
                      find_best_tick_ok_lt (expand_ticks_nTicks _ _) heq
                    exact inv_step_expand s s' T base _ hInv hnt0 (hpow.resolve_left (by omega))
                      hple hppos hbase8 hcount0 hok
              · rw [if_neg hexp] at hok
                by_cases hz : s.nTicks = 0
                · rw [if_pos hz] at hok
                  exact absurd hok (by simp)
                · rw [if_neg hz] at hok
                  have hnt8 : s.nTicks = 8 := by
                    rcases hInv.nt with h0 | h8
                    · exact absurd h0 hz
                    · exact h8
                  have hp9 : 9 ≤ p := by omega
                  obtain ⟨a, ha⟩ := hpow.resolve_left (by omega)
                  have ha4 : 4 ≤ a := by
                    by_contra hlt
                    have h3 : a ≤ 3 := by omega
                    have : p ≤ 8 := by
                      rw [ha]
                      calc 2 ^ a ≤ 2 ^ 3 := Nat.pow_le_pow_right (by norm_num) h3
                        _ = 8 := by norm_num
                    omega
                  have hdvval : p / s.nTicks = 2 ^ (a - 3) := by
                    rw [hnt8, ha]
                    have h8 : (8 : ℕ) = 2 ^ 3 := by norm_num
                    rw [h8, Nat.pow_div (by omega) (by norm_num)]
                  have hdveq : p / s.nTicks = max 1 (p / 8) := by
                    rw [hnt8]
                    have h1 : 1 ≤ p / 8 := (Nat.one_le_div_iff (by norm_num)).mpr (by omega)
                    exact (Nat.max_eq_right h1).symm
                  have hcnt1 : (1 : ℕ) = max 1 (8 / p) := by
                    rw [Nat.div_eq_of_lt (by omega)]
                    rfl
                  by_cases hmdlt : s.maxDivider < p / s.nTicks
                  · rw [if_pos hmdlt] at hok
                    by_cases h256 : 256 ≤ p / s.nTicks
                    · rw [if_pos h256] at hok
                      exact absurd hok (by simp)
                    · rw [if_neg h256] at hok
                      split at hok
                      next e heq => exact absurd hok (by simp)
                      next base heq =>
                          have hbase8 : base < 8 := find_best_tick_ok_lt hnt8 heq
                          have hmd' : ∃ k, k ≤ 7 ∧ p / s.nTicks = 2 ^ k := by
                            refine ⟨a - 3, ?_, hdvval⟩
                            rw [hdvval] at h256
                            by_contra hgt
                            have h8a : 8 ≤ a - 3 := by omega
                            have : (2 : ℕ) ^ 8 ≤ 2 ^ (a - 3) :=
                              Nat.pow_le_pow_right (by norm_num) h8a
                            omega
                          exact inv_step_no_expand s s' T base 1 (p / s.nTicks) (p / s.nTicks)
                            hInv hnt8 (by omega) ⟨a, ha⟩ hmd' hbase8 hcnt1 hdveq hok
                  · rw [if_neg hmdlt] at hok
                    split at hok
                    next e heq => exact absurd hok (by simp)
                    next base heq =>
                        have hbase8 : base < 8 := find_best_tick_ok_lt hnt8 heq
                        exact inv_step_no_expand s s' T base 1 (p / s.nTicks) s.maxDivider
                          hInv hnt8 (by omega) ⟨a, ha⟩ hInv.maxdiv hbase8 hcnt1 hdveq hok
            · rw [if_neg hbig] at hok
              by_cases hp0 : p = 0
              · rw [if_pos hp0] at hok
                exact absurd hok (by simp)
              · rw [if_neg hp0] at hok
                have hnt8 : s.nTicks = 8 := by
                  rcases hInv.nt with h0 | h8
                  · omega
                  · exact h8
                split at hok
                next e heq => exact absurd hok (by simp)
                next base heq =>
                    have hple : p ≤ 8 := by omega
                    have hppos : 0 < p := Nat.pos_of_ne_zero hp0
                    have hbase8 : base < 8 := find_best_tick_ok_lt hnt8 heq
                    refine inv_step_no_expand s s' T base (s.nTicks / p) 1 s.maxDivider hInv hnt8
                      (by omega) (hpow.resolve_left hp0) hInv.maxdiv hbase8 ?_ ?_ hok
                    · rw [hnt8]
                      have h1 : 1 ≤ 8 / p := (Nat.one_le_div_iff hppos).mpr hple
                      exact (Nat.max_eq_right h1).symm
                    · have h0 : p / 8 ≤ 1 := by
                        have h2 : p / 8 ≤ 8 / 8 := Nat.div_le_div_right hple
                        simpa using h2
                      exact (Nat.max_eq_left h0).symm

/-- The zero-initialized state satisfies the invariant. -/
theorem inv_init (mt : ℕ) (conds : List String) : Inv (initSched mt conds) := by
  have hdef : ∀ i, tickAt (initSched mt conds) i = default := by
    intro i
    show (List.replicate MAX_TICKS default).getD i default = default
    rw [List.getD, List.get?_eq_getElem?, List.getElem?_replicate]
    split <;> rfl
  have hslots : ∀ i, slotsIn (initSched mt conds) i = [] := by
    intro i
    rw [slotsIn, hdef i]
    rfl
  constructor
  case ticks_len => exact List.length_replicate MAX_TICKS default
  case nt => exact Or.inl rfl
  case empty0 => exact fun _ => ⟨rfl, hdef⟩
  case slot_task =>
      intro i sl hsl
      rw [hslots i] at hsl
      exact absurd hsl (List.not_mem_nil sl)
  case high_empty => exact fun i _ => hslots i
  case cap =>
      intro i
      rw [hslots i]
      norm_num
  case tasks_cap =>
      show 0 ≤ MAX_TASKS
      norm_num
  case maxdiv => exact ⟨0, by norm_num, rfl⟩
  case periods => intro t ht; exact absurd ht (Nat.not_lt_zero t)
  case counts => intro t ht; exact absurd ht (Nat.not_lt_zero t)
  case divs =>
      intro i sl hsl
      rw [hslots i] at hsl
      exact absurd hsl (List.not_mem_nil sl)
  case pos => intro t ht; exact absurd ht (Nat.not_lt_zero t)
  case lens =>
      intro i
      rw [tickLenSum, hslots i, List.map_nil, List.sum_nil, hdef i]
      rfl

/-- Any sequence of validated insertions preserves the invariant. -/
theorem inv_runChecked : ∀ (ins : List (String × ℕ × ℚ)) (s₀ s' : Schedule),
    Inv s₀ → runChecked s₀ ins = .ok s' → Inv s' := by
  intro ins
  induction ins with
  | nil =>
      intro s₀ s' h hok
      rw [runChecked] at hok
      injection hok with he
      subst he
      exact h
  | cons i rest ih =>
      intro s₀ s' h hok
      rw [runChecked] at hok
      obtain ⟨nm, per, ln⟩ := i
      cases hstep : insertChecked s₀ (nm, per, ln) with
      | error e =>
          rw [hstep] at hok
          exact absurd hok (by simp)
      | ok s₁ =>
          rw [hstep] at hok
          exact ih s₁ s' (inv_insertChecked h hstep) hok

/-- Every reachable state satisfies the invariant. -/
theorem inv_reach {mt : ℕ} {conds : List String} {s : Schedule} (h : Reach mt conds s) : Inv s := by
  obtain ⟨ins, hok⟩ := h
  exact inv_runChecked ins (initSched mt conds) s (inv_init mt conds) hok

/-! ### The claims -/

/-- **C3.** After every successful sequence of validated task insertions,
every task `T` appears in exactly `max 1 (n_ticks / T.period)` slots, all of
those slots carry the divider `max 1 (T.period / n_ticks)`, the slots occupy
the tick indices `base, base + T.period, base + 2·T.period, …` taken modulo
`n_ticks`, and every tick's recorded length equals the sum over its slots of
`task.length / divider`. -/
theorem claim_c3_placement_invariant (mt : ℕ) (conds : List String)
    (ins : List (String × ℕ × ℚ)) (s' : Schedule)
    (hok : runChecked (initSched mt conds) ins = .ok s') :
    ∀ t, t < s'.tasks.length →
      totalSlots s' t = max 1 (s'.nTicks / (s'.tasks.getD t default).period) ∧
      (∀ i, ∀ sl ∈ slotsIn s' i, sl.task = t →
        sl.divider = max 1 ((s'.tasks.getD t default).period / s'.nTicks)) ∧
      (∃ base, base < s'.nTicks ∧ ∀ i, slotCountIn s' t i =
        ((List.range (max 1 (s'.nTicks / (s'.tasks.getD t default).period))).map
          (fun k => (base + k * (s'.tasks.getD t default).period) % s'.nTicks)).count i) ∧
      (∀ i, (tickAt s' i).len = tickLenSum s' i) := by
  have hInv := inv_runChecked ins _ s' (inv_init mt conds) hok
  intro t ht
  refine ⟨hInv.counts t ht, ?_, ?_, hInv.lens⟩
  · intro i sl hsl hta
    rw [← hta]
    exact hInv.divs i sl hsl
  · obtain ⟨base, hb, hc⟩ := hInv.pos t ht
    refine ⟨base, hb, fun i => ?_⟩
    rw [hc i, posList_eq_map_range hb]

/-- Witness for C3: the two-task schedule `fast 1 0`, `rare 16 0.2`. -/
theorem claim_c3_witness :
    runChecked (initSched 8 []) [("fast", 1, 0), ("rare", 16, (1 : ℚ) / 5)] =
      .ok scenarioCState ∧
    (∀ t, t < scenarioCState.tasks.length →
      totalSlots scenarioCState t =
        max 1 (scenarioCState.nTicks / (scenarioCState.tasks.getD t default).period) ∧
      (∀ i, ∀ sl ∈ slotsIn scenarioCState i, sl.task = t →
        sl.divider = max 1 ((scenarioCState.tasks.getD t default).period / scenarioCState.nTicks)) ∧
      (∃ base, base < scenarioCState.nTicks ∧ ∀ i, slotCountIn scenarioCState t i =
        ((List.range (max 1 (scenarioCState.nTicks /
            (scenarioCState.tasks.getD t default).period))).map
          (fun k => (base + k * (scenarioCState.tasks.getD t default).period) %
            scenarioCState.nTicks)).count i) ∧
      (∀ i, (tickAt scenarioCState i).len = tickLenSum scenarioCState i)) :=
  ⟨by with_unfolding_all rfl, claim_c3_placement_invariant 8 []
    [("fast", 1, 0), ("rare", 16, (1 : ℚ) / 5)] scenarioCState (by with_unfolding_all rfl)⟩

/-- **C1 counterexample.** Scenario A input (`scan 1 0.1`) with
`max_ticks = 4`: the insertion succeeds, but the run ends with
`n_ticks = 8` — not 1 (the smallest power of two ≥ the period), and not
≤ `max_ticks`. -/
theorem claim_c1_counterexample :
    runChecked (initSched 4 []) [("scan", 1, (1 : ℚ) / 10)] = .ok scenarioAState ∧
    scenarioAState.nTicks = 8 ∧ scenarioAState.maxTicks = 4 ∧
    ¬ scenarioAState.nTicks ≤ scenarioAState.maxTicks := by
  refine ⟨by with_unfolding_all rfl, by with_unfolding_all rfl, by with_unfolding_all rfl, ?_⟩
  intro h
  rw [show scenarioAState.nTicks = 8 by with_unfolding_all rfl,
    show scenarioAState.maxTicks = 4 by with_unfolding_all rfl] at h
  omega

/-- **C1 amended.** `expand_ticks` sets `n_ticks` to 8 unconditionally,
ignoring the (capped) requested width; consequently, after any successful
insertion run that has created at least one task, `n_ticks = 8` — a power of
two, but exceeding `max_ticks` whenever `max_ticks < 8`.  In Scenario A
(`max_ticks = 4`, one task of period 1) `n_ticks` therefore ends at 8,
not 1. -/
theorem claim_c1_amended :
    (∀ (s : Schedule) (r : ℕ), (expand_ticks s r).nTicks = 8) ∧
    (∀ (mt : ℕ) (conds : List String) (ins : List (String × ℕ × ℚ)) (s' : Schedule),
      runChecked (initSched mt conds) ins = .ok s' → s'.tasks ≠ [] →
      s'.nTicks = 8 ∧ ∃ k, s'.nTicks = 2 ^ k) := by
  refine ⟨fun s r => rfl, fun mt conds ins s' hok hne => ?_⟩
  have hInv := inv_runChecked ins _ s' (inv_init mt conds) hok
  rcases hInv.nt with h0 | h8
  · exact absurd (hInv.empty0 h0).1 hne
  · exact ⟨h8, 3, by rw [h8]; norm_num⟩

/-- Witness for the amended C1 at the Scenario A input. -/
theorem claim_c1_amended_witness :
    scenarioAState.tasks ≠ [] ∧
    (scenarioAState.nTicks = 8 ∧ ∃ k, scenarioAState.nTicks = 2 ^ k) := by
  refine ⟨by with_unfolding_all decide, ?_⟩
  exact claim_c1_amended.2 4 [] [("scan", 1, (1 : ℚ) / 10)] scenarioAState
    (by with_unfolding_all rfl) (by with_unfolding_all decide)

/-- **C5.** In every reachable state `max_divider` is a power of two of at
most 128, and a further insertion taking the divider branch (period above
both `n_ticks` and `max_ticks`) whose computed divider `period / n_ticks`
reaches 256 fails with the fatal "period too large" diagnostic. -/
theorem claim_c5_divider_bound (mt : ℕ) (conds : List String)
    (ins : List (String × ℕ × ℚ)) (s : Schedule)
    (hok : runChecked (initSched mt conds) ins = .ok s) :
    ((∃ k, k ≤ 7 ∧ s.maxDivider = 2 ^ k) ∧ s.maxDivider ≤ 128) ∧
    (∀ (nm : String) (p : ℕ) (l : ℚ), s.nTicks ≠ 0 → s.nTicks < p → s.maxTicks < p →
      256 ≤ p / s.nTicks → (stripConditional s.conditionals nm).isSome →
      s.tasks.length < MAX_TASKS →
      add_task s nm p l = .error (.fatalError "period too large")) := by
  have hInv := inv_runChecked ins _ s (inv_init mt conds) hok
  have hbound : s.maxDivider ≤ 128 := by
    obtain ⟨k, hk, he⟩ := hInv.maxdiv
    rw [he]
    calc (2 : ℕ) ^ k ≤ 2 ^ 7 := Nat.pow_le_pow_right (by norm_num) hk
      _ = 128 := by norm_num
  refine ⟨⟨hInv.maxdiv, hbound⟩, ?_⟩
  intro nm p l hz hbig hexp hdiv hsome hcap
  rw [add_task]
  obtain ⟨name1, hname1⟩ := Option.isSome_iff_exists.mp hsome
  rw [hname1]
  simp only []
  rw [if_neg (by omega), if_pos hbig, if_neg (by omega), if_neg hz,
    if_pos (by omega), if_pos hdiv]

/-- Witness for C5: after `fast 1 0` (so `n_ticks = 8`), inserting a task of
period 2048 = 256 × 8 is the fatal "period too large" error. -/
theorem claim_c5_witness :
    runChecked (initSched 8 []) [("fast", 1, 0)] = .ok c5State ∧
    ((∃ k, k ≤ 7 ∧ c5State.maxDivider = 2 ^ k) ∧ c5State.maxDivider ≤ 128) ∧
    add_task c5State "big" 2048 0 = .error (.fatalError "period too large") := by
  have h := claim_c5_divider_bound 8 [] [("fast", 1, 0)] c5State (by with_unfolding_all rfl)
  refine ⟨by with_unfolding_all rfl, h.1, ?_⟩
  exact h.2 "big" 2048 0 (by with_unfolding_all decide) (by with_unfolding_all decide)
    (by with_unfolding_all decide) (by with_unfolding_all decide)
    (by with_unfolding_all decide) (by with_unfolding_all decide)

/-- **C4 counterexample.** On a tick table whose unique cost minimum is the
sentinel value 99999.0 itself (attained at candidate 1, while candidate 0
totals 199998), `find_best_tick` returns 0: the initial `best = 0` is only
ever replaced by a total *strictly below* the initial `best_len = 99999.0`,
so the minimizing index 1 is not returned and the tie-break-to-smallest rule
is violated. -/
theorem claim_c4_counterexample :
    find_best_tick cexFBT 4 2 ((1 : ℚ) / 5) = .ok 0 ∧
    (1 : ℕ) < cexFBT.nTicks / 2 ∧
    candTotal cexFBT 4 2 ((1 : ℚ) / 5) 1 < candTotal cexFBT 4 2 ((1 : ℚ) / 5) 0 := by
  refine ⟨by with_unfolding_all rfl, by with_unfolding_all decide, by with_unfolding_all decide⟩

/-- **C4 amended.** For `count = 0` the function is the division-by-zero
crash.  For `count ≠ 0`, it returns the least index minimizing the candidate
totals whenever some candidate total is strictly below 99999.0; when every
candidate total is ≥ 99999.0 it returns index 0 regardless of where the
minimum lies (ties elsewhere break to index 0, not to the smallest
minimizing index). -/
theorem claim_c4_amended (s : Schedule) (period count : ℕ) (len : ℚ) :
    (count = 0 → find_best_tick s period count len = .error .divByZero) ∧
    (count ≠ 0 → ∃ b, find_best_tick s period count len = .ok b ∧
      (((∀ i, i < s.nTicks / count → (99999 : ℚ) ≤ candTotal s period count len i) ∧ b = 0) ∨
       (b < s.nTicks / count ∧ candTotal s period count len b < 99999 ∧
        (∀ i, i < s.nTicks / count →
          candTotal s period count len b ≤ candTotal s period count len i) ∧
        (∀ i, i < b →
          candTotal s period count len b < candTotal s period count len i)))) := by
  constructor
  · intro h0
    rw [find_best_tick, if_pos h0]
  · intro hc
    rcases fbtRange_spec (candTotal s period count len) (s.nTicks / count) with
      ⟨heq, hall⟩ | ⟨hlt, _, hsmall, hmin, hfirst⟩
    · refine ⟨0, ?_, Or.inl ⟨hall, rfl⟩⟩
      rw [find_best_tick, if_neg hc, heq]
    · exact ⟨_, by rw [find_best_tick, if_neg hc], Or.inr ⟨hlt, hsmall, hmin, hfirst⟩⟩

/-- Witness for the amended C4 at the counterexample state. -/
theorem claim_c4_amended_witness :
    (2 : ℕ) ≠ 0 ∧ ∃ b, find_best_tick cexFBT 4 2 ((1 : ℚ) / 5) = .ok b ∧
      (((∀ i, i < cexFBT.nTicks / 2 → (99999 : ℚ) ≤ candTotal cexFBT 4 2 ((1 : ℚ) / 5) i) ∧
        b = 0) ∨
       (b < cexFBT.nTicks / 2 ∧ candTotal cexFBT 4 2 ((1 : ℚ) / 5) b < 99999 ∧
        (∀ i, i < cexFBT.nTicks / 2 →
          candTotal cexFBT 4 2 ((1 : ℚ) / 5) b ≤ candTotal cexFBT 4 2 ((1 : ℚ) / 5) i) ∧
        (∀ i, i < b →
          candTotal cexFBT 4 2 ((1 : ℚ) / 5) b < candTotal cexFBT 4 2 ((1 : ℚ) / 5) i))) :=
  ⟨by norm_num, (claim_c4_amended cexFBT 4 2 ((1 : ℚ) / 5)).2 (by norm_num)⟩

/-- **C2 (code evaluation).** The single line `rare 16 0.2` with
`max_ticks = 8` reaches the divider branch of `add_task` while `n_ticks` is
still 0, so the code computes `divider = 16 / 0` — a division by zero — and
never produces the result Scenario C promises.  The promised result does
appear when a prior task has already expanded the tick table: then the run
ends with `n_ticks = 8`, `max_divider = 2`, and the single `rare` slot with
divider 2 in tick 7, whose emitted guard mask is `divider & 1`. -/
theorem claim_c2_divider_crash :
    runChecked (initSched 8 []) [("rare", 16, (1 : ℚ) / 5)] = .error .divByZero ∧
    runChecked (initSched 8 []) [("fast", 1, 0), ("rare", 16, (1 : ℚ) / 5)] =
      .ok scenarioCState ∧
    scenarioCState.nTicks = 8 ∧
    scenarioCState.maxDivider = 2 ∧
    slotsIn scenarioCState 7 = [⟨1, 0⟩, ⟨2, 1⟩] ∧
    (scenarioCState.tasks.getD 1 default).period = 16 ∧
    emittedGuardMask 2 = some 1 := by
  refine ⟨by with_unfolding_all rfl, by with_unfolding_all rfl, by with_unfolding_all rfl,
    by with_unfolding_all rfl, by with_unfolding_all rfl, by with_unfolding_all rfl, rfl⟩

/-- **C6 (code evaluation).** A live line with fewer than three tokens does
not produce a fatal diagnostic: `parse_schedule` passes the NULL result of
`strtok` straight into `parse_time`, whose `strlen(NULL)` is a crash
(modelled as `nullDeref`).  Blank lines and `#` comments are skipped, and a
well-formed line is accepted. -/
theorem claim_c6_missing_token_crash :
    parse_line "onlyname" = .error .nullDeref ∧
    parse_line "task 2" = .error .nullDeref ∧
    parse_line "" = .ok .skip ∧
    parse_line "# comment line" = .ok .skip ∧
    parse_line "scan 1 0.1" = .ok (.task "scan" 1 ((1 : ℚ) / 10)) := by
  refine ⟨by with_unfolding_all rfl, by with_unfolding_all rfl, by with_unfolding_all rfl,
    by with_unfolding_all rfl, by with_unfolding_all rfl⟩

/-- **C7 counterexample.** On the malformed token `xyz` the code's
`parse_time` silently returns 0.0 (the `strtod` no-conversion result) while
the specified parser reports a parse error: `parse_time` never reports an
error or aborts generation. -/
theorem claim_c7_counterexample :
    parse_time "xyz" = 0 ∧
    parse_time_spec "xyz" = .error (.fatalError "parse error") := by
  refine ⟨by with_unfolding_all rfl, by with_unfolding_all rfl⟩

/-- **C7 amended.** `parse_time` performs no validation and never aborts:
on every token where the specified parser succeeds it returns the same value
(including the `c`/`C` division by `cycles_per_tick = 1952`), and on every
token the specified parser rejects as malformed it returns 0 and generation
continues. -/
theorem claim_c7_amended (s : String) :
    (∀ v, parse_time_spec s = .ok v → parse_time s = v) ∧
    (∀ e, parse_time_spec s = .error e → parse_time s = 0) := by
  constructor
  · intro v h
    rw [parse_time_spec] at h
    cases hm : strtodModel s.data with
    | none =>
        rw [hm] at h
        exact absurd h (by simp)
    | some q =>
        rw [hm] at h
        injection h with h
        rw [parse_time, strtod, hm]
        cases hl : s.data.getLast? with
        | none =>
            rw [hl, if_neg (by simp)] at h
            show (some q).getD 0 = v
            rw [Option.getD_some]
            exact h
        | some c =>
            rw [hl] at h
            show (if c = 'c' ∨ c = 'C' then (some q).getD 0 / (CYCLES_PER_TICK : ℚ)
              else (some q).getD 0) = v
            by_cases hc : c = 'c' ∨ c = 'C'
            · rw [if_pos hc, Option.getD_some]
              rw [if_pos ?_] at h
              · exact h
              · rcases hc with rfl | rfl
                · exact Or.inl rfl
                · exact Or.inr rfl
            · rw [if_neg hc, Option.getD_some]
              rw [if_neg ?_] at h
              · exact h
              · intro hcon
                rcases hcon with h1 | h1
                · exact hc (Or.inl (Option.some.inj h1))
                · exact hc (Or.inr (Option.some.inj h1))
  · intro e h
    rw [parse_time_spec] at h
    cases hm : strtodModel s.data with
    | some q =>
        rw [hm] at h
        exact absurd h (by simp)
    | none =>
        rw [parse_time, strtod, hm]
        cases s.data.getLast? with
        | none =>
            show ((none : Option ℚ).getD 0) = 0
            rfl
        | some c =>
            show (if c = 'c' ∨ c = 'C' then ((none : Option ℚ).getD 0) / (CYCLES_PER_TICK : ℚ)
              else ((none : Option ℚ).getD 0)) = 0
            by_cases hc : c = 'c' ∨ c = 'C'
            · rw [if_pos hc, Option.getD_none]
              norm_num
            · rw [if_neg hc, Option.getD_none]

/-- Witness for the amended C7: the malformed token `zzz` parses to 0 with
no abort, and the well-formed cycle token `780c` parses to 780 / 1952. -/
theorem claim_c7_amended_witness :
    parse_time "zzz" = 0 ∧ parse_time "780c" = 780 / 1952 := by
  constructor
  · exact (claim_c7_amended "zzz").2 (.fatalError "parse error") (by with_unfolding_all rfl)
  · exact (claim_c7_amended "780c").1 (780 / 1952) (by with_unfolding_all rfl)

/-- **C8 counterexample.** A tick holding 31 slots — strictly below the
32-slot capacity — already fails `alloc_slot` (the check fires at
`n_slots + 1 == MAX_SLOTS_PER_TICK`), so a tick does not accept 32 slots;
and with the task table at its 64-task capacity, `add_task` does not fail
with a fatal diagnostic but writes past the end of `tasks[]` (undefined
behaviour, modelled as `oobWrite`). -/
theorem claim_c8_counterexample :
    tick31.slots.length = 31 ∧ tick31.slots.length + 1 ≤ MAX_SLOTS_PER_TICK ∧
    alloc_slot tick31 ⟨1, 0⟩ = .error (.fatalError "too many tasks scheduled in same tick") ∧
    fullTaskState.tasks.length = MAX_TASKS ∧
    add_task fullTaskState "t" 2 0 = .error .oobWrite := by
  refine ⟨by with_unfolding_all rfl, by with_unfolding_all decide, by with_unfolding_all rfl,
    by with_unfolding_all rfl, by with_unfolding_all rfl⟩

/-- **C8 amended.** A tick accepts at most 31 slots: appending to a tick
with 31 slots is the fatal diagnostic, and appending below that succeeds.
The task table has no enforced cap in `add_task`: once `MAX_TASKS` tasks
exist, the next non-skipped insertion is an out-of-bounds write (undefined
behaviour), not a fatal error.  Every reachable state respects both caps. -/
theorem claim_c8_amended :
    (∀ (t : Tick) (sl : Slot), t.slots.length = 31 →
      alloc_slot t sl = .error (.fatalError "too many tasks scheduled in same tick")) ∧
    (∀ (t : Tick) (sl : Slot), t.slots.length ≤ 30 →
      alloc_slot t sl = .ok { t with slots := t.slots ++ [sl] }) ∧
    (∀ (s : Schedule) (nm : String) (p : ℕ) (l : ℚ), MAX_TASKS ≤ s.tasks.length →
      (stripConditional s.conditionals nm).isSome →
      add_task s nm p l = .error .oobWrite) ∧
    (∀ (mt : ℕ) (conds : List String) (ins : List (String × ℕ × ℚ)) (s' : Schedule),
      runChecked (initSched mt conds) ins = .ok s' →
      (∀ i, (slotsIn s' i).length ≤ 31) ∧ s'.tasks.length ≤ MAX_TASKS) := by
  refine ⟨?_, ?_, ?_, ?_⟩
  · intro t sl h31
    rw [alloc_slot, if_pos ?_]
    rw [h31]
    rfl
  · intro t sl h30
    rw [alloc_slot, if_neg ?_]
    have h32 : MAX_SLOTS_PER_TICK = 32 := rfl
    omega
  · intro s nm p l hfull hsome
    obtain ⟨name1, hname1⟩ := Option.isSome_iff_exists.mp hsome
    rw [add_task, hname1]
    simp only []
    rw [if_pos hfull]
  · intro mt conds ins s' hok
    have hInv := inv_runChecked ins _ s' (inv_init mt conds) hok
    exact ⟨hInv.cap, hInv.tasks_cap⟩

/-- Witness for the amended C8 at concrete states. -/
theorem claim_c8_amended_witness :
    alloc_slot tick31 ⟨2, 5⟩ = .error (.fatalError "too many tasks scheduled in same tick") ∧
    alloc_slot ⟨[], 0⟩ ⟨1, 0⟩ = .ok ⟨[⟨1, 0⟩], 0⟩ ∧
    add_task fullTaskState "u" 4 0 = .error .oobWrite ∧
    ((∀ i, (slotsIn scenarioCState i).length ≤ 31) ∧
      scenarioCState.tasks.length ≤ MAX_TASKS) := by
  refine ⟨?_, ?_, ?_, ?_⟩
  · exact claim_c8_amended.1 tick31 ⟨2, 5⟩ (by with_unfolding_all rfl)
  · exact claim_c8_amended.2.1 ⟨[], 0⟩ ⟨1, 0⟩ (by with_unfolding_all decide)
  · exact claim_c8_amended.2.2.1 fullTaskState "u" 4 0 (by with_unfolding_all decide)
      (by with_unfolding_all decide)
  · exact claim_c8_amended.2.2.2 8 [] [("fast", 1, 0), ("rare", 16, (1 : ℚ) / 5)] scenarioCState
      (by with_unfolding_all rfl)

/-- On every interrupt the running handler index is the interrupt count
modulo `n_ticks`: handler 0 is installed by `<prefix>_init` and each handler
installs its successor. -/
theorem handlerAt_mod (n : ℕ) (hn : 0 < n) : ∀ k, handlerAt n k = k % n := by
  intro k
  induction k with
  | zero =>
      show initHandler = 0 % n
      rw [Nat.zero_mod]
      rfl
  | succ k ih =>
      show nextHandler n (handlerAt n k) = (k + 1) % n
      rw [ih, nextHandler]
      by_cases h1 : 1 < n
      · rw [if_pos h1, Nat.mod_add_mod]
      · have hn1 : n = 1 := by omega
        subst hn1
        rw [if_neg h1, Nat.mod_one, Nat.mod_one]

/-- **C9.** The emitted dispatch is a round-robin rotation: `init` installs
handler 0, and each handler installs handler `(i+1) mod n_ticks` when
`n_ticks > 1`; hence over any `n_ticks` consecutive interrupts starting from
any reachable point `k₀` of the schedule, each handler index `j` executes
exactly once. -/
theorem claim_c9_round_robin (n : ℕ) (hn : 0 < n) (k₀ j : ℕ) (hj : j < n) :
    initHandler = 0 ∧ ∃! k, k < n ∧ handlerAt n (k₀ + k) = j := by
  refine ⟨rfl, ?_⟩
  have hmod : ∀ k, handlerAt n (k₀ + k) = (k₀ % n + k) % n := by
    intro k
    rw [handlerAt_mod n hn, ← Nat.mod_add_mod]
  set r := k₀ % n with hr
  have hrn : r < n := Nat.mod_lt k₀ hn
  refine ⟨if r ≤ j then j - r else n + j - r, ⟨?_, ?_⟩, ?_⟩
  · by_cases hrj : r ≤ j
    · rw [if_pos hrj]
      omega
    · rw [if_neg hrj]
      omega
  · rw [hmod]
    by_cases hrj : r ≤ j
    · rw [if_pos hrj]
      have h1 : r + (j - r) = j := by omega
      rw [h1]
      exact Nat.mod_eq_of_lt hj
    · rw [if_neg hrj]
      have h1 : r + (n + j - r) = n + j := by omega
      rw [h1, Nat.add_mod_left]
      exact Nat.mod_eq_of_lt hj
  · intro y hy
    obtain ⟨hy1, hy2⟩ := hy
    rw [hmod] at hy2
    by_cases hcase : r + y < n
    · rw [Nat.mod_eq_of_lt hcase] at hy2
      by_cases hrj : r ≤ j
      · rw [if_pos hrj]
        omega
      · rw [if_neg hrj]
        omega
    · have hsub : (r + y) % n = r + y - n := by
        rw [Nat.mod_eq_sub_mod (by omega)]
        exact Nat.mod_eq_of_lt (by omega)
      rw [hsub] at hy2
      by_cases hrj : r ≤ j
      · rw [if_pos hrj]
        omega
      · rw [if_neg hrj]
        omega

/-- Witness for C9 with four handlers, starting three interrupts in, for
handler index 2. -/
theorem claim_c9_witness :
    (0 < 4 ∧ 2 < 4) ∧ (initHandler = 0 ∧ ∃! k, k < 4 ∧ handlerAt 4 (3 + k) = 2) :=
  ⟨by norm_num, claim_c9_round_robin 4 (by norm_num) 3 2 (by norm_num)⟩

/-- **C10.** A period token equal to 0 passes the power-of-two validation of
`parse_schedule` (`0 & (0-1) == 0` in 32-bit unsigned arithmetic), and — if
the length check also passes, which a negative length such as `-1` does —
the task reaches `add_task`, where the slot count `n_ticks / period` is a
division by zero, both in the initial state and after the tick table has
been expanded to 8. -/
theorem claim_c10_period_zero :
    ((0 : ℕ) &&& ((0 + MASK32 - 1) % MASK32)) = 0 ∧
    parse_line "x 0 -1" = .ok (.task "x" 0 (-1)) ∧
    add_task (initSched 8 []) "x" 0 (-1) = .error .divByZero ∧
    add_task c5State "x" 0 (-1) = .error .divByZero := by
  refine ⟨by with_unfolding_all decide, by with_unfolding_all rfl,
    by with_unfolding_all rfl, by with_unfolding_all rfl⟩

end Sched
